import Mathlib

/-!
Verification development for the `cache.js` LRU + TTL + memory-bounded cache
(`src/src/index.ts`).  The JavaScript class is shallowly embedded: the
`Map<Key, CacheEntry>` becomes an insertion-ordered association list, the
red-black `TimeoutTree` becomes a timestamp-sorted association list of key
buckets, JS numbers become `JNum` (a finite value or `Infinity`; every
quantity on the modelled code paths — `Date.now()` timestamps, ttl
milliseconds, byte sizes, item counts — is integral, so finite values are
carried as integers; the one true division, in the `memory` getter, lands
in `JMem` over the rationals), and the `setImmediate` queue plus the
runtime's outstanding `setTimeout` handles are modelled explicitly so that
deferred pruning, deferred TTL registration and timer firing are faithful
transitions.
-/

set_option linter.unusedSectionVars false

namespace CacheJS

/-- A JS number as used by the cache state: a finite (integral) value or
`Infinity`.  (`NaN` and `-Infinity` never arise on the modelled paths.) -/
inductive JNum where
  | fin : ℤ → JNum
  | inf : JNum
deriving DecidableEq

/-- JS `<` on the numbers that occur: `a < Infinity` is true for finite `a`,
`Infinity < x` is always false. -/
def JNum.lt : JNum → JNum → Bool
  | .fin a, .fin b => a < b
  | .fin _, .inf => true
  | .inf, _ => false

/-- JS `+` restricted to the cases reached by `Date.now() + ttl`:
anything plus `Infinity` is `Infinity`. -/
def JNum.add : JNum → JNum → JNum
  | .fin a, .fin b => .fin (a + b)
  | _, _ => .inf

/-- JS multiplication by a positive finite constant
(`maxMemoryInMb * 1024 ** 2`): `Infinity * c = Infinity`. -/
def JNum.mulConst : JNum → ℤ → JNum
  | .fin a, c => .fin (a * c)
  | .inf, _ => .inf

/-- A field of the `memory` getter's result: a finite rational number of
megabytes or `Infinity`. -/
inductive JMem where
  | fin : ℚ → JMem
  | inf : JMem
deriving DecidableEq

/-- JS division of a byte count by the positive constant `1024 ** 2`
(the `memory` getter): `Infinity / c = Infinity`. -/
def JNum.divConst : JNum → ℚ → JMem
  | .fin a, c => .fin ((a : ℚ) / c)
  | .inf, _ => .inf

/-- The JS values whose `Cache.measureSize` cases are exercised here:
strings, numbers, booleans, bigints and `undefined`.  (Buffers, typed
views, plain objects, symbols and functions are not modelled; no claim
depends on them.) -/
inductive JSValue where
  | str : String → JSValue
  | num : ℤ → JSValue
  | boolean : Bool → JSValue
  | bigint : ℤ → JSValue
  | undef : JSValue
deriving DecidableEq

/-- Length of `value.toString(2)` for a bigint: binary digits of the
absolute value (1 for zero) plus one character for a minus sign. -/
def bigintBinLen (n : ℤ) : ℕ :=
  (if n = 0 then 1 else Nat.log2 n.natAbs + 1) + (if n < 0 then 1 else 0)

/-- `Cache.measureSize` from the source, on the modelled value shapes:
UTF-8 byte length for strings, 8 for numbers, 4 for booleans,
`Math.ceil(bits / 8) + 8` for bigints, 0 for `undefined`. -/
def measureSize : JSValue → ℤ
  | .str s => (s.utf8ByteSize : ℤ)
  | .num _ => 8
  | .boolean _ => 4
  | .bigint n => ((bigintBinLen n + 7) / 8 : ℕ) + 8
  | .undef => 0

/-- `CacheEntry` from `types.ts`: estimated byte size, stored value,
absolute expiry timestamp (`Infinity` for "never"). -/
structure Entry where
  size : ℤ
  value : JSValue
  expiresAt : JNum
deriving DecidableEq

variable {K : Type} [DecidableEq K]

/-- `Map.get` on the insertion-ordered association list. -/
def mapGet : List (K × Entry) → K → Option Entry
  | [], _ => none
  | (k', e) :: rest, k => if k' = k then some e else mapGet rest k

/-- `Map.delete` on the insertion-ordered association list: removes the
(unique) binding for the key, preserving the order of the others. -/
def mapDelete : List (K × Entry) → K → List (K × Entry)
  | [], _ => []
  | (k', e) :: rest, k => if k' = k then rest else (k', e) :: mapDelete rest k

/-- `Set.add` on a JS `Set` modelled as a duplicate-free list in insertion
order. -/
def bucketAdd (b : List K) (k : K) : List K :=
  if k ∈ b then b else b ++ [k]

/-- `Set.delete` on a JS `Set` modelled as a duplicate-free list. -/
def bucketErase : List K → K → List K
  | [], _ => []
  | x :: xs, k => if x = k then xs else x :: bucketErase xs k

/-- `tree.get(t)` on the timestamp-sorted bucket list. -/
def treeGet : List (ℤ × List K) → ℤ → Option (List K)
  | [], _ => none
  | (t', b) :: rest, t => if t' = t then some b else treeGet rest t

/-- `tree.insert(t, b)`: sorted insertion of a fresh timestamp node
(only called when `t` is absent). -/
def treeInsert : List (ℤ × List K) → ℤ → List K → List (ℤ × List K)
  | [], t, b => [(t, b)]
  | (t', b') :: rest, t, b =>
    if t < t' then (t, b) :: (t', b') :: rest
    else (t', b') :: treeInsert rest t b

/-- In-place mutation of the bucket stored at timestamp `t`
(the JS code mutates the `Set` held inside the tree). -/
def treeUpdate : List (ℤ × List K) → ℤ → List K → List (ℤ × List K)
  | [], _, _ => []
  | (t', b') :: rest, t, b =>
    if t' = t then (t, b) :: rest else (t', b') :: treeUpdate rest t b

/-- `tree.remove(t)`: removes the node for timestamp `t`. -/
def treeRemove : List (ℤ × List K) → ℤ → List (ℤ × List K)
  | [], _ => []
  | (t', b') :: rest, t => if t' = t then rest else (t', b') :: treeRemove rest t

/-- `this.#timeout.tree.begin.key || Infinity`: the smallest timestamp in
the tree, or `Infinity` when the tree is empty.  Faithful to JS `||`:
a smallest timestamp of exactly `0` is falsy and also yields `Infinity`. -/
def beginKeyOrInf : List (ℤ × List K) → JNum
  | [] => .inf
  | (t, _) :: _ => if t = 0 then .inf else .fin t

/-- A deferred `setImmediate` task: a pending `#prune` pass or a pending
`#addTTL(key, expiresAt)` registration. -/
inductive Task (K : Type) where
  | prune : Task K
  | addTTL : K → ℤ → Task K
deriving DecidableEq

/-- The whole cache state: the private fields of the `Cache` class plus the
`setImmediate` FIFO (`pending`) and the runtime's outstanding `setTimeout`
handles (`live`, with `nextId` a fresh-handle counter). -/
structure Cache (K : Type) where
  maxItems : JNum
  ttl : JNum
  data : List (K × Entry)
  memCurrent : ℤ
  memMax : JNum
  tree : List (ℤ × List K)
  timeoutId : Option ℕ
  timeoutTimestamp : JNum
  noPruneScheduled : Bool
  pending : List (Task K)
  live : List ℕ
  nextId : ℕ

/-- The constructor's option object, with the source's defaults. -/
structure CacheOptions where
  ttl : JNum := .inf
  maxItems : JNum := .inf
  maxMemoryInMb : JNum := .inf

/-- The `Cache` constructor: stores `ttl` and `maxItems` as given and
`maxMemoryInMb * 1024 ** 2` as the byte ceiling.  No validation of any
kind is performed on the options. -/
def mkCache (o : CacheOptions) : Cache K :=
  { maxItems := o.maxItems
    ttl := o.ttl
    data := []
    memCurrent := 0
    memMax := o.maxMemoryInMb.mulConst (1024 ^ 2)
    tree := []
    timeoutId := none
    timeoutTimestamp := .inf
    noPruneScheduled := true
    pending := []
    live := []
    nextId := 0 }

/-- `if (this.#timeout.id !== undefined) clearTimeout(this.#timeout.id)`:
cancels the recorded handle if there is one (the stale id value itself is
kept, exactly as in the source). -/
def clearHandle (s : Cache K) : Cache K :=
  match s.timeoutId with
  | some i => { s with live := s.live.erase i }
  | none => s

/-- `#scheduleNextTimer`: cancel the recorded handle, point
`timeoutTimestamp` at the tree's smallest timestamp (or `Infinity`), and
arm a fresh one-shot timer when that timestamp is finite.  (`clearTimeout`
touches neither the tree nor the id counter, so `s.tree` and `s.nextId`
below equal the post-cancellation values.) -/
def scheduleNextTimer (s : Cache K) : Cache K :=
  if beginKeyOrInf s.tree = JNum.inf then
    { clearHandle s with timeoutTimestamp := beginKeyOrInf s.tree }
  else
    { clearHandle s with
        timeoutTimestamp := beginKeyOrInf s.tree
        timeoutId := some s.nextId
        live := (clearHandle s).live ++ [s.nextId]
        nextId := s.nextId + 1 }

/-- `delete(key)`: remove the entry if present, subtract its size from the
memory counter, and drop the key from its expiry bucket — removing the
whole bucket (and rescheduling the timer when it was the armed one) when
the bucket holds a single element. -/
def Cache.delete (s : Cache K) (k : K) : Cache K :=
  match mapGet s.data k with
  | none => s
  | some e =>
    match e.expiresAt with
    | .inf => { s with data := mapDelete s.data k, memCurrent := s.memCurrent - e.size }
    | .fin t =>
      match treeGet s.tree t with
      | none => { s with data := mapDelete s.data k, memCurrent := s.memCurrent - e.size }
      | some b =>
        if b.length = 1 then
          if JNum.fin t = s.timeoutTimestamp then
            scheduleNextTimer
              { s with
                  data := mapDelete s.data k
                  memCurrent := s.memCurrent - e.size
                  tree := treeRemove s.tree t }
          else
            { s with
                data := mapDelete s.data k
                memCurrent := s.memCurrent - e.size
                tree := treeRemove s.tree t }
        else
          { s with
              data := mapDelete s.data k
              memCurrent := s.memCurrent - e.size
              tree := treeUpdate s.tree t (bucketErase b k) }

/-- The first `if` block of `set`: queue a deferred prune when a limit is
exceeded, no prune is pending yet, and mark one pending. -/
def schedulePruneIfNeeded (s2 : Cache K) : Cache K :=
  if s2.noPruneScheduled &&
      (JNum.lt s2.maxItems (.fin (s2.data.length : ℤ)) ||
        JNum.lt s2.memMax (.fin s2.memCurrent)) then
    { s2 with noPruneScheduled := false, pending := s2.pending ++ [Task.prune] }
  else s2

/-- The second `if` block of `set`: queue a deferred `#addTTL` registration
when the computed `expiresAt` is finite. -/
def scheduleAddTTLIfFinite (k : K) (expiresAt : JNum) (s3 : Cache K) : Cache K :=
  match expiresAt with
  | .fin t => { s3 with pending := s3.pending ++ [Task.addTTL k t] }
  | .inf => s3

/-- `set(key, value, ttl)`: delete any old entry, insert the fresh one at
the newest position, add its size to the memory counter, queue a deferred
prune when a limit is exceeded and none is pending, and queue a deferred
TTL registration when `expiresAt` is finite. -/
def Cache.set (s : Cache K) (now : ℤ) (k : K) (v : JSValue) (ttlArg : JNum) : Cache K :=
  scheduleAddTTLIfFinite k ((JNum.fin now).add ttlArg)
    (schedulePruneIfNeeded
      { Cache.delete s k with
          data := (Cache.delete s k).data ++
            [(k, ⟨measureSize v, v, (JNum.fin now).add ttlArg⟩)]
          memCurrent := (Cache.delete s k).memCurrent + measureSize v })

/-- `get(key)`: returns the value and moves the key to the newest position
when the entry exists and `Date.now() < expiresAt`; otherwise returns
nothing and leaves the state untouched. -/
def Cache.get (s : Cache K) (now : ℤ) (k : K) : Option JSValue × Cache K :=
  match mapGet s.data k with
  | none => (none, s)
  | some e =>
    if JNum.lt (.fin now) e.expiresAt then
      (some e.value, { s with data := mapDelete s.data k ++ [(k, e)] })
    else
      (none, s)

/-- `has(key)`: the entry exists and `Date.now() < expiresAt`.  No side
effects. -/
def Cache.has (s : Cache K) (now : ℤ) (k : K) : Bool :=
  match mapGet s.data k with
  | none => false
  | some e => JNum.lt (.fin now) e.expiresAt

/-- `clear()`: cancel the pending timer, discard the store and the expiry
tree, reset the memory counter.  (The `setImmediate` queue is untouched,
as in the source.) -/
def Cache.clear (s : Cache K) : Cache K :=
  { clearHandle s with
      data := []
      memCurrent := 0
      tree := []
      timeoutId := none
      timeoutTimestamp := .inf }

/-- `#prune`'s loop guard: `#data.size < #maxItems && #memory.current <
#memory.max`, both comparisons strict, exactly as in the source. -/
def underLimits (maxI maxM : JNum) (n : ℕ) (mem : ℤ) : Bool :=
  JNum.lt (.fin (n : ℤ)) maxI && JNum.lt (.fin mem) maxM

/-- The eviction loop of `#prune`: walk the store oldest-first, deleting
entries and subtracting their sizes, stopping as soon as the strict
`underLimits` guard holds. -/
def pruneLoop (maxI maxM : JNum) : List (K × Entry) → ℤ → List (K × Entry) × ℤ
  | [], mem => ([], mem)
  | (k, e) :: rest, mem =>
    if underLimits maxI maxM ((k, e) :: rest).length mem then
      ((k, e) :: rest, mem)
    else
      pruneLoop maxI maxM rest (mem - e.size)

/-- `#prune`: re-allow scheduling, then run the eviction loop.  Note that
it touches only the entry store and the memory counter — the expiry tree
and the timer are left as they are. -/
def Cache.prune (s : Cache K) : Cache K :=
  { s with
      noPruneScheduled := true
      data := (pruneLoop s.maxItems s.memMax s.data s.memCurrent).1
      memCurrent := (pruneLoop s.maxItems s.memMax s.data s.memCurrent).2 }

/-- The tree insertion of `#addTTL`: add the key to the bucket for its
timestamp, creating the bucket if absent. -/
def addTTLTree (s : Cache K) (k : K) (t : ℤ) : Cache K :=
  match treeGet s.tree t with
  | none => { s with tree := treeInsert s.tree t (bucketAdd [] k) }
  | some b => { s with tree := treeUpdate s.tree t (bucketAdd b k) }

/-- `#addTTL(key, expiresAt)`: add the key to the bucket for its timestamp
(creating the bucket if absent) and reschedule the timer when this
timestamp undercuts the currently armed one. -/
def Cache.addTTL (s : Cache K) (k : K) (t : ℤ) : Cache K :=
  if JNum.lt (.fin t) s.timeoutTimestamp then scheduleNextTimer (addTTLTree s k t)
  else addTTLTree s k t

/-- Run the oldest pending `setImmediate` task (FIFO, as in Node). -/
def runTask (s : Cache K) : Cache K :=
  match s.pending with
  | [] => s
  | Task.prune :: rest => Cache.prune { s with pending := rest }
  | Task.addTTL k t :: rest => Cache.addTTL { s with pending := rest } k t

/-- The inner loop of `#onKeyExpired`: for each key of an expiring bucket,
delete it from the store and subtract its size, when it is still present. -/
def reapBucket : List (K × Entry) → ℤ → List K → List (K × Entry) × ℤ
  | data, mem, [] => (data, mem)
  | data, mem, k :: ks =>
    match mapGet data k with
    | some e => reapBucket (mapDelete data k) (mem - e.size) ks
    | none => reapBucket data mem ks

/-- The outer loop of `#onKeyExpired`: pop and reap minimum buckets while
the smallest timestamp is `≤ now` (an empty tree compares falsely, ending
the loop). -/
def expireLoop (now : ℤ) :
    List (ℤ × List K) → List (K × Entry) → ℤ → List (ℤ × List K) × List (K × Entry) × ℤ
  | [], data, mem => ([], data, mem)
  | (t, b) :: rest, data, mem =>
    if t ≤ now then
      expireLoop now rest (reapBucket data mem b).1 (reapBucket data mem b).2
    else
      ((t, b) :: rest, data, mem)

/-- The body of `#onKeyExpired` after the id reset: reap every due bucket,
then re-arm the timer only when the tree is still non-empty (`begin.valid`).
When the tree has been emptied, `timeoutTimestamp` keeps its stale value,
exactly as in the source. -/
def onKeyExpired (s0 : Cache K) (now : ℤ) : Cache K :=
  if (expireLoop now s0.tree s0.data s0.memCurrent).1 = [] then
    { s0 with
        tree := (expireLoop now s0.tree s0.data s0.memCurrent).1
        data := (expireLoop now s0.tree s0.data s0.memCurrent).2.1
        memCurrent := (expireLoop now s0.tree s0.data s0.memCurrent).2.2 }
  else
    scheduleNextTimer
      { s0 with
          tree := (expireLoop now s0.tree s0.data s0.memCurrent).1
          data := (expireLoop now s0.tree s0.data s0.memCurrent).2.1
          memCurrent := (expireLoop now s0.tree s0.data s0.memCurrent).2.2 }

/-- The armed timer `i` fires at instant `now`: the runtime consumes the
handle, then the callback `#onKeyExpired` runs (it first sets the recorded
id to `undefined`). -/
def fire (s : Cache K) (now : ℤ) (i : ℕ) : Cache K :=
  onKeyExpired { s with live := s.live.erase i, timeoutId := none } now

/-- The `size` getter: the entry count of the store. -/
def Cache.size (s : Cache K) : ℕ :=
  s.data.length

/-- The `memory` getter: `{ current, max }` with both internal byte counts
divided by `1024 ** 2`. -/
def Cache.memory (s : Cache K) : JMem × JMem :=
  (JNum.divConst (.fin s.memCurrent) ((1024 : ℚ) ^ 2),
    JNum.divConst s.memMax ((1024 : ℚ) ^ 2))

/-! ### Association-list and tree lemmas -/

theorem mapGet_eq_none_iff (l : List (K × Entry)) (k : K) :
    mapGet l k = none ↔ k ∉ l.map Prod.fst := by
  induction l with
  | nil => simp [mapGet]
  | cons p rest ih =>
    obtain ⟨k', e⟩ := p
    by_cases h : k' = k <;> simp [mapGet, h, ih, Ne.symm]

theorem mapGet_mapDelete_self (l : List (K × Entry)) (k : K)
    (h : (l.map Prod.fst).Nodup) : mapGet (mapDelete l k) k = none := by
  induction l with
  | nil => simp [mapDelete, mapGet]
  | cons p rest ih =>
    obtain ⟨k', e⟩ := p
    simp only [List.map_cons, List.nodup_cons] at h
    by_cases hk : k' = k
    · subst hk
      simpa [mapDelete, mapGet_eq_none_iff] using h.1
    · simp [mapDelete, hk, mapGet, ih h.2]

theorem mapGet_append_of_none (l l' : List (K × Entry)) (k : K)
    (h : mapGet l k = none) : mapGet (l ++ l') k = mapGet l' k := by
  induction l with
  | nil => simp
  | cons p rest ih =>
    obtain ⟨k', e⟩ := p
    simp only [mapGet] at h
    by_cases hk : k' = k
    · simp [hk] at h
    · simp only [List.cons_append, mapGet, if_neg hk]
      exact ih (by simpa [mapGet, hk] using h)

theorem treeGet_treeRemove_self (tr : List (ℤ × List K)) (t : ℤ)
    (h : (tr.map Prod.fst).Nodup) : treeGet (treeRemove tr t) t = none := by
  induction tr with
  | nil => simp [treeRemove, treeGet]
  | cons p rest ih =>
    obtain ⟨t', b⟩ := p
    simp only [List.map_cons, List.nodup_cons] at h
    by_cases ht : t' = t
    · subst ht
      have : ∀ tr' : List (ℤ × List K), t' ∉ tr'.map Prod.fst → treeGet tr' t' = none := by
        intro tr' hmem
        induction tr' with
        | nil => simp [treeGet]
        | cons q rest' ih' =>
          obtain ⟨u, c⟩ := q
          simp only [List.map_cons, List.mem_cons] at hmem
          push_neg at hmem
          simp [treeGet, Ne.symm hmem.1, ih' hmem.2]
      simpa [treeRemove] using this rest h.1
    · simp [treeRemove, ht, treeGet, ih h.2]

theorem treeGet_treeUpdate_self (tr : List (ℤ × List K)) (t : ℤ) (b nb : List K)
    (h : treeGet tr t = some b) : treeGet (treeUpdate tr t nb) t = some nb := by
  induction tr with
  | nil => simp [treeGet] at h
  | cons p rest ih =>
    obtain ⟨t', b'⟩ := p
    by_cases ht : t' = t
    · simp [treeUpdate, ht, treeGet]
    · simp only [treeGet, if_neg ht] at h
      simp [treeUpdate, ht, treeGet, ih h]

/-! ### The prune loop, characterised -/

/-- Sum of the estimated sizes of a store segment. -/
def sumSizes : List (K × Entry) → ℤ
  | [] => 0
  | (_, e) :: rest => e.size + sumSizes rest

theorem pruneLoop_spec (maxI maxM : JNum) (l : List (K × Entry)) (mem : ℤ) :
    ∃ n, n ≤ l.length ∧
      pruneLoop maxI maxM l mem = (l.drop n, mem - sumSizes (l.take n)) ∧
      (l.drop n = [] ∨
        underLimits maxI maxM (l.drop n).length (mem - sumSizes (l.take n)) = true) ∧
      ∀ j, j < n →
        underLimits maxI maxM (l.drop j).length (mem - sumSizes (l.take j)) = false := by
  induction l generalizing mem with
  | nil =>
    exact ⟨0, by simp, by simp [pruneLoop, sumSizes], Or.inl (by simp), by simp⟩
  | cons p rest ih =>
    obtain ⟨k, e⟩ := p
    by_cases hc : underLimits maxI maxM ((k, e) :: rest).length mem = true
    · refine ⟨0, by simp, ?_, Or.inr (by simpa [sumSizes] using hc), by simp⟩
      simp only [pruneLoop]
      rw [if_pos hc]
      simp [sumSizes]
    · obtain ⟨n, hn, heq, hstop, hmin⟩ := ih (mem - e.size)
      have h1 : pruneLoop maxI maxM ((k, e) :: rest) mem =
          pruneLoop maxI maxM rest (mem - e.size) := by
        simp only [pruneLoop]
        rw [if_neg hc]
      refine ⟨n + 1, by simpa using hn, ?_, ?_, ?_⟩
      · rw [h1, heq]
        simp only [List.drop_succ_cons, List.take_succ_cons, sumSizes, Prod.mk.injEq]
        exact ⟨trivial, by ring⟩
      · simpa [sumSizes, sub_sub] using hstop
      · intro j hj
        cases j with
        | zero => simpa [sumSizes] using eq_false_of_ne_true hc
        | succ j' =>
          have := hmin j' (by omega)
          simpa [sumSizes, sub_sub] using this

/-! ### Reachability and the single-timer invariant -/

/-- The states a cache can be driven into: the constructor, the five public
operations, running one pending `setImmediate` task, and the armed timer
firing (which requires its handle to be outstanding). -/
inductive Reachable : Cache K → Prop where
  | init (o : CacheOptions) : Reachable (mkCache o)
  | setStep (s : Cache K) (now : ℤ) (k : K) (v : JSValue) (t : JNum) :
      Reachable s → Reachable (Cache.set s now k v t)
  | getStep (s : Cache K) (now : ℤ) (k : K) :
      Reachable s → Reachable (Cache.get s now k).2
  | deleteStep (s : Cache K) (k : K) :
      Reachable s → Reachable (Cache.delete s k)
  | clearStep (s : Cache K) :
      Reachable s → Reachable (Cache.clear s)
  | taskStep (s : Cache K) :
      Reachable s → Reachable (runTask s)
  | fireStep (s : Cache K) (now : ℤ) (i : ℕ) :
      Reachable s → i ∈ s.live → Reachable (fire s now i)

/-- The runtime's outstanding timer handles are either none, or exactly the
one recorded in `timeoutId`.  (The converse need not hold: after the tree
empties, `timeoutId` may keep a stale, already-cancelled id.) -/
def TimerInv (s : Cache K) : Prop :=
  s.live = [] ∨ ∃ i, s.live = [i] ∧ s.timeoutId = some i

theorem clearHandle_live_nil (s : Cache K) (h : TimerInv s) :
    (clearHandle s).live = [] := by
  unfold clearHandle
  rcases h with h | ⟨i, hl, hid⟩
  · cases hid : s.timeoutId <;> simp [hid, h]
  · simp [hid, hl]

theorem timerInv_scheduleNextTimer (s : Cache K) (h : TimerInv s) :
    TimerInv (scheduleNextTimer s) := by
  have hl : (clearHandle s).live = [] := clearHandle_live_nil s h
  unfold scheduleNextTimer
  split
  · exact Or.inl hl
  · exact Or.inr ⟨s.nextId, by simp [hl], rfl⟩

theorem timerInv_delete (s : Cache K) (k : K) (h : TimerInv s) :
    TimerInv (Cache.delete s k) := by
  unfold Cache.delete
  split
  · exact h
  · split
    · exact h
    · split
      · exact h
      · split
        · split
          · exact timerInv_scheduleNextTimer _ h
          · exact h
        · exact h

theorem timerInv_schedulePruneIfNeeded (s : Cache K) (h : TimerInv s) :
    TimerInv (schedulePruneIfNeeded s) := by
  unfold schedulePruneIfNeeded
  split
  · exact h
  · exact h

theorem timerInv_scheduleAddTTLIfFinite (k : K) (e : JNum) (s : Cache K)
    (h : TimerInv s) : TimerInv (scheduleAddTTLIfFinite k e s) := by
  unfold scheduleAddTTLIfFinite
  split
  · exact h
  · exact h

theorem timerInv_set (s : Cache K) (now : ℤ) (k : K) (v : JSValue) (t : JNum)
    (h : TimerInv s) : TimerInv (Cache.set s now k v t) := by
  unfold Cache.set
  exact timerInv_scheduleAddTTLIfFinite _ _ _
    (timerInv_schedulePruneIfNeeded _ (timerInv_delete s k h))

theorem timerInv_get (s : Cache K) (now : ℤ) (k : K) (h : TimerInv s) :
    TimerInv (Cache.get s now k).2 := by
  unfold Cache.get
  split
  · exact h
  · split
    · exact h
    · exact h

theorem timerInv_clear (s : Cache K) (h : TimerInv s) :
    TimerInv (Cache.clear s) := by
  exact Or.inl (clearHandle_live_nil s h)

theorem timerInv_prune (s : Cache K) (h : TimerInv s) :
    TimerInv (Cache.prune s) := h

theorem timerInv_addTTLTree (s : Cache K) (k : K) (t : ℤ) (h : TimerInv s) :
    TimerInv (addTTLTree s k t) := by
  unfold addTTLTree
  split
  · exact h
  · exact h

theorem timerInv_addTTL (s : Cache K) (k : K) (t : ℤ) (h : TimerInv s) :
    TimerInv (Cache.addTTL s k t) := by
  unfold Cache.addTTL
  split
  · exact timerInv_scheduleNextTimer _ (timerInv_addTTLTree s k t h)
  · exact timerInv_addTTLTree s k t h

theorem timerInv_runTask (s : Cache K) (h : TimerInv s) :
    TimerInv (runTask s) := by
  unfold runTask
  split
  · exact h
  · exact timerInv_prune _ h
  · exact timerInv_addTTL _ _ _ h

theorem timerInv_fire (s : Cache K) (now : ℤ) (i : ℕ) (h : TimerInv s)
    (hi : i ∈ s.live) : TimerInv (fire s now i) := by
  have h0 : TimerInv { s with live := s.live.erase i, timeoutId := none } := by
    left
    rcases h with h | ⟨j, hl, _⟩
    · simp [h]
    · have hij : i = j := by
        rw [hl] at hi
        simpa using hi
      subst hij
      simp [hl]
  unfold fire onKeyExpired
  split
  · exact h0
  · exact timerInv_scheduleNextTimer _ h0

theorem reachable_timerInv (s : Cache K) (h : Reachable s) : TimerInv s := by
  induction h with
  | init o => exact Or.inl rfl
  | setStep s now k v t _ ih => exact timerInv_set s now k v t ih
  | getStep s now k _ ih => exact timerInv_get s now k ih
  | deleteStep s k _ ih => exact timerInv_delete s k ih
  | clearStep s _ ih => exact timerInv_clear s ih
  | taskStep s _ ih => exact timerInv_runTask s ih
  | fireStep s now i _ hi ih => exact timerInv_fire s now i ih hi

/-! ### Characterising the operations -/

theorem clearHandle_data (s : Cache K) : (clearHandle s).data = s.data := by
  unfold clearHandle
  split <;> rfl

theorem clearHandle_memCurrent (s : Cache K) :
    (clearHandle s).memCurrent = s.memCurrent := by
  unfold clearHandle
  split <;> rfl

theorem clearHandle_tree (s : Cache K) : (clearHandle s).tree = s.tree := by
  unfold clearHandle
  split <;> rfl

theorem scheduleNextTimer_data (s : Cache K) :
    (scheduleNextTimer s).data = s.data := by
  unfold scheduleNextTimer
  split <;> exact clearHandle_data s

theorem scheduleNextTimer_memCurrent (s : Cache K) :
    (scheduleNextTimer s).memCurrent = s.memCurrent := by
  unfold scheduleNextTimer
  split <;> exact clearHandle_memCurrent s

theorem scheduleNextTimer_tree (s : Cache K) :
    (scheduleNextTimer s).tree = s.tree := by
  unfold scheduleNextTimer
  split <;> exact clearHandle_tree s

theorem delete_of_absent (s : Cache K) (k : K) (h : mapGet s.data k = none) :
    Cache.delete s k = s := by
  unfold Cache.delete
  rw [h]

theorem delete_data_of_present (s : Cache K) (k : K) (e : Entry)
    (h : mapGet s.data k = some e) :
    (Cache.delete s k).data = mapDelete s.data k ∧
      (Cache.delete s k).memCurrent = s.memCurrent - e.size := by
  unfold Cache.delete
  rw [h]
  dsimp only
  cases he : e.expiresAt with
  | inf => exact ⟨rfl, rfl⟩
  | fin t =>
    dsimp only
    cases ht : treeGet s.tree t with
    | none => exact ⟨rfl, rfl⟩
    | some b =>
      dsimp only
      by_cases hb : b.length = 1
      · rw [if_pos hb]
        by_cases hts : JNum.fin t = s.timeoutTimestamp
        · rw [if_pos hts]
          exact ⟨scheduleNextTimer_data _, scheduleNextTimer_memCurrent _⟩
        · rw [if_neg hts]
          exact ⟨rfl, rfl⟩
      · rw [if_neg hb]
        exact ⟨rfl, rfl⟩

theorem mapGet_delete_self (s : Cache K) (k : K)
    (h : (s.data.map Prod.fst).Nodup) :
    mapGet (Cache.delete s k).data k = none := by
  cases hm : mapGet s.data k with
  | none => rw [delete_of_absent s k hm]; exact hm
  | some e =>
    rw [(delete_data_of_present s k e hm).1]
    exact mapGet_mapDelete_self s.data k h

theorem schedulePruneIfNeeded_data (s : Cache K) :
    (schedulePruneIfNeeded s).data = s.data := by
  unfold schedulePruneIfNeeded
  split <;> rfl

theorem schedulePruneIfNeeded_memCurrent (s : Cache K) :
    (schedulePruneIfNeeded s).memCurrent = s.memCurrent := by
  unfold schedulePruneIfNeeded
  split <;> rfl

theorem scheduleAddTTLIfFinite_data (k : K) (e : JNum) (s : Cache K) :
    (scheduleAddTTLIfFinite k e s).data = s.data := by
  unfold scheduleAddTTLIfFinite
  split <;> rfl

theorem scheduleAddTTLIfFinite_memCurrent (k : K) (e : JNum) (s : Cache K) :
    (scheduleAddTTLIfFinite k e s).memCurrent = s.memCurrent := by
  unfold scheduleAddTTLIfFinite
  split <;> rfl

theorem set_data (s : Cache K) (now : ℤ) (k : K) (v : JSValue) (t : JNum) :
    (Cache.set s now k v t).data =
      (Cache.delete s k).data ++ [(k, ⟨measureSize v, v, (JNum.fin now).add t⟩)] := by
  unfold Cache.set
  rw [scheduleAddTTLIfFinite_data, schedulePruneIfNeeded_data]

theorem set_memCurrent (s : Cache K) (now : ℤ) (k : K) (v : JSValue) (t : JNum) :
    (Cache.set s now k v t).memCurrent =
      (Cache.delete s k).memCurrent + measureSize v := by
  unfold Cache.set
  rw [scheduleAddTTLIfFinite_memCurrent, schedulePruneIfNeeded_memCurrent]

theorem mapGet_set_self (s : Cache K) (now : ℤ) (k : K) (v : JSValue) (t : JNum)
    (h : (s.data.map Prod.fst).Nodup) :
    mapGet (Cache.set s now k v t).data k =
      some ⟨measureSize v, v, (JNum.fin now).add t⟩ := by
  rw [set_data, mapGet_append_of_none _ _ _ (mapGet_delete_self s k h)]
  simp [mapGet]

theorem has_of_entry (s : Cache K) (now : ℤ) (k : K) (e : Entry)
    (h : mapGet s.data k = some e) :
    Cache.has s now k = JNum.lt (.fin now) e.expiresAt := by
  unfold Cache.has
  rw [h]

theorem has_set_nonpos (s : Cache K) (now : ℤ) (k : K) (v : JSValue) (t : ℤ)
    (ht : t ≤ 0) (h : (s.data.map Prod.fst).Nodup) :
    Cache.has (Cache.set s now k v (.fin t)) now k = false := by
  rw [has_of_entry _ now k _ (mapGet_set_self s now k v (.fin t) h)]
  simp only [JNum.add, JNum.lt]
  simpa using by omega

theorem get_of_live (s : Cache K) (now : ℤ) (k : K) (e : Entry)
    (h : mapGet s.data k = some e) (hlt : JNum.lt (.fin now) e.expiresAt = true) :
    Cache.get s now k =
      (some e.value, { s with data := mapDelete s.data k ++ [(k, e)] }) := by
  unfold Cache.get
  rw [h]
  dsimp only
  rw [if_pos hlt]

theorem get_of_dead (s : Cache K) (now : ℤ) (k : K) (e : Entry)
    (h : mapGet s.data k = some e) (hlt : JNum.lt (.fin now) e.expiresAt = false) :
    Cache.get s now k = (none, s) := by
  unfold Cache.get
  rw [h]
  dsimp only
  rw [if_neg (by simp [hlt])]

theorem mapGet_mapDelete_of_none (l : List (K × Entry)) (k k' : K)
    (h : mapGet l k = none) : mapGet (mapDelete l k') k = none := by
  induction l with
  | nil => simpa [mapDelete] using h
  | cons p rest ih =>
    obtain ⟨k0, e⟩ := p
    simp only [mapGet] at h
    by_cases h0 : k0 = k
    · simp [h0] at h
    · have hrest : mapGet rest k = none := by simpa [h0] using h
      by_cases h1 : k0 = k'
      · simpa [mapDelete, h1] using hrest
      · simp [mapDelete, h1, mapGet, h0, ih hrest]

theorem mapDelete_keys_sublist (l : List (K × Entry)) (k : K) :
    ((mapDelete l k).map Prod.fst).Sublist (l.map Prod.fst) := by
  induction l with
  | nil => simp [mapDelete]
  | cons p rest ih =>
    obtain ⟨k0, e⟩ := p
    by_cases h : k0 = k
    · simp only [mapDelete, if_pos h, List.map_cons]
      exact List.Sublist.cons k0 (List.Sublist.refl _)
    · simp only [mapDelete, if_neg h, List.map_cons]
      exact List.Sublist.cons₂ k0 ih

theorem reapBucket_absent (ks : List K) (data : List (K × Entry)) (mem : ℤ)
    (k : K) (h : mapGet data k = none) :
    mapGet (reapBucket data mem ks).1 k = none := by
  induction ks generalizing data mem with
  | nil => simpa [reapBucket] using h
  | cons k' ks' ih =>
    cases hm : mapGet data k' with
    | none =>
      have he : reapBucket data mem (k' :: ks') = reapBucket data mem ks' := by
        simp only [reapBucket, hm]
      rw [he]
      exact ih data mem h
    | some e =>
      have he : reapBucket data mem (k' :: ks') =
          reapBucket (mapDelete data k') (mem - e.size) ks' := by
        simp only [reapBucket, hm]
      rw [he]
      exact ih _ _ (mapGet_mapDelete_of_none data k k' h)

theorem reapBucket_keys_sublist (ks : List K) (data : List (K × Entry)) (mem : ℤ) :
    (((reapBucket data mem ks).1).map Prod.fst).Sublist (data.map Prod.fst) := by
  induction ks generalizing data mem with
  | nil => exact List.Sublist.refl _
  | cons k' ks' ih =>
    cases hm : mapGet data k' with
    | none =>
      have he : reapBucket data mem (k' :: ks') = reapBucket data mem ks' := by
        simp only [reapBucket, hm]
      rw [he]
      exact ih data mem
    | some e =>
      have he : reapBucket data mem (k' :: ks') =
          reapBucket (mapDelete data k') (mem - e.size) ks' := by
        simp only [reapBucket, hm]
      rw [he]
      exact (ih _ _).trans (mapDelete_keys_sublist data k')

theorem reapBucket_member_absent (ks : List K) (data : List (K × Entry)) (mem : ℤ)
    (k : K) (hk : k ∈ ks) (hnd : (data.map Prod.fst).Nodup) :
    mapGet (reapBucket data mem ks).1 k = none := by
  induction ks generalizing data mem with
  | nil => cases hk
  | cons k' ks' ih =>
    cases hm : mapGet data k' with
    | none =>
      have he : reapBucket data mem (k' :: ks') = reapBucket data mem ks' := by
        simp only [reapBucket, hm]
      rw [he]
      rcases List.mem_cons.mp hk with rfl | hk'
      · exact reapBucket_absent ks' data mem k hm
      · exact ih data mem hk' hnd
    | some e =>
      have he : reapBucket data mem (k' :: ks') =
          reapBucket (mapDelete data k') (mem - e.size) ks' := by
        simp only [reapBucket, hm]
      rw [he]
      have hnd' : ((mapDelete data k').map Prod.fst).Nodup :=
        List.Nodup.sublist (mapDelete_keys_sublist data k') hnd
      rcases List.mem_cons.mp hk with rfl | hk'
      · exact reapBucket_absent ks' _ _ k (mapGet_mapDelete_self data k hnd)
      · exact ih _ _ hk' hnd'

theorem expireLoop_absent (now : ℤ) (tr : List (ℤ × List K))
    (data : List (K × Entry)) (mem : ℤ) (k : K) (h : mapGet data k = none) :
    mapGet (expireLoop now tr data mem).2.1 k = none := by
  induction tr generalizing data mem with
  | nil => simpa [expireLoop] using h
  | cons p rest ih =>
    obtain ⟨t, b⟩ := p
    by_cases hT : t ≤ now
    · have he : expireLoop now ((t, b) :: rest) data mem =
          expireLoop now rest (reapBucket data mem b).1 (reapBucket data mem b).2 := by
        simp only [expireLoop]
        rw [if_pos hT]
      rw [he]
      exact ih _ _ (reapBucket_absent b data mem k h)
    · have he : expireLoop now ((t, b) :: rest) data mem = ((t, b) :: rest, data, mem) := by
        simp only [expireLoop]
        rw [if_neg hT]
      rw [he]
      exact h

theorem expireLoop_removes (now : ℤ) (tr : List (ℤ × List K))
    (data : List (K × Entry)) (mem : ℤ) (k : K) (t : ℤ) (b : List K)
    (hsort : List.Pairwise (fun p q => p.1 ≤ q.1) tr) (hmem : (t, b) ∈ tr)
    (hk : k ∈ b) (hT : t ≤ now) (hnd : (data.map Prod.fst).Nodup) :
    mapGet (expireLoop now tr data mem).2.1 k = none := by
  induction tr generalizing data mem with
  | nil => cases hmem
  | cons p rest ih =>
    obtain ⟨t0, b0⟩ := p
    rcases List.mem_cons.mp hmem with heq | hmem'
    · injection heq with h1 h2
      subst h1
      subst h2
      have he : expireLoop now ((t, b) :: rest) data mem =
          expireLoop now rest (reapBucket data mem b).1 (reapBucket data mem b).2 := by
        simp only [expireLoop]
        rw [if_pos hT]
      rw [he]
      exact expireLoop_absent now rest _ _ k (reapBucket_member_absent b data mem k hk hnd)
    · have h0t : t0 ≤ t := by
        have := (List.pairwise_cons.mp hsort).1 (t, b) hmem'
        simpa using this
      have he : expireLoop now ((t0, b0) :: rest) data mem =
          expireLoop now rest (reapBucket data mem b0).1 (reapBucket data mem b0).2 := by
        simp only [expireLoop]
        rw [if_pos (le_trans h0t hT)]
      rw [he]
      exact ih _ _ (List.pairwise_cons.mp hsort).2 hmem'
        (List.Nodup.sublist (reapBucket_keys_sublist b0 data mem) hnd)

theorem fire_removes (s : Cache K) (now : ℤ) (i : ℕ) (k : K) (t : ℤ) (b : List K)
    (hsort : List.Pairwise (fun p q => p.1 ≤ q.1) s.tree) (hmem : (t, b) ∈ s.tree)
    (hk : k ∈ b) (hT : t ≤ now) (hnd : (s.data.map Prod.fst).Nodup) :
    mapGet (fire s now i).data k = none := by
  unfold fire onKeyExpired
  dsimp only
  split
  · exact expireLoop_removes now s.tree s.data s.memCurrent k t b hsort hmem hk hT hnd
  · rw [scheduleNextTimer_data]
    exact expireLoop_removes now s.tree s.data s.memCurrent k t b hsort hmem hk hT hnd

theorem sumSizes_mapDelete (l : List (K × Entry)) (k : K) (e : Entry)
    (h : mapGet l k = some e) : sumSizes (mapDelete l k) = sumSizes l - e.size := by
  induction l with
  | nil => simp [mapGet] at h
  | cons p rest ih =>
    obtain ⟨k0, e0⟩ := p
    by_cases h0 : k0 = k
    · simp only [mapGet, if_pos h0] at h
      injection h with h1
      subst h1
      simp only [mapDelete, if_pos h0, sumSizes]
      ring
    · simp only [mapGet, if_neg h0] at h
      simp only [mapDelete, if_neg h0, sumSizes, ih h]
      ring

theorem reapBucket_sum (ks : List K) (data : List (K × Entry)) (mem : ℤ)
    (h : mem = sumSizes data) :
    (reapBucket data mem ks).2 = sumSizes (reapBucket data mem ks).1 := by
  induction ks generalizing data mem with
  | nil => simpa [reapBucket] using h
  | cons k' ks' ih =>
    cases hm : mapGet data k' with
    | none =>
      have he : reapBucket data mem (k' :: ks') = reapBucket data mem ks' := by
        simp only [reapBucket, hm]
      rw [he]
      exact ih data mem h
    | some e =>
      have he : reapBucket data mem (k' :: ks') =
          reapBucket (mapDelete data k') (mem - e.size) ks' := by
        simp only [reapBucket, hm]
      rw [he]
      exact ih _ _ (by rw [h, sumSizes_mapDelete data k' e hm])

theorem expireLoop_sum (now : ℤ) (tr : List (ℤ × List K))
    (data : List (K × Entry)) (mem : ℤ) (h : mem = sumSizes data) :
    (expireLoop now tr data mem).2.2 = sumSizes (expireLoop now tr data mem).2.1 := by
  induction tr generalizing data mem with
  | nil => simpa [expireLoop] using h
  | cons p rest ih =>
    obtain ⟨t, b⟩ := p
    by_cases hT : t ≤ now
    · have he : expireLoop now ((t, b) :: rest) data mem =
          expireLoop now rest (reapBucket data mem b).1 (reapBucket data mem b).2 := by
        simp only [expireLoop]
        rw [if_pos hT]
      rw [he]
      exact ih _ _ (reapBucket_sum b data mem h)
    · have he : expireLoop now ((t, b) :: rest) data mem = ((t, b) :: rest, data, mem) := by
        simp only [expireLoop]
        rw [if_neg hT]
      rw [he]
      exact h

theorem fire_mem_sum (s : Cache K) (now : ℤ) (i : ℕ)
    (h : s.memCurrent = sumSizes s.data) :
    (fire s now i).memCurrent = sumSizes (fire s now i).data := by
  unfold fire onKeyExpired
  dsimp only
  split
  · exact expireLoop_sum now s.tree s.data s.memCurrent h
  · rw [scheduleNextTimer_memCurrent, scheduleNextTimer_data]
    exact expireLoop_sum now s.tree s.data s.memCurrent h

theorem fire_reaps_singleton (s : Cache K) (now : ℤ) (i : ℕ) (k : K) (e : Entry)
    (t : ℤ) (hTree : s.tree = [(t, [k])]) (hMap : mapGet s.data k = some e)
    (hNd : (s.data.map Prod.fst).Nodup) (hT : t ≤ now) :
    mapGet (fire s now i).data k = none ∧
      (fire s now i).memCurrent = s.memCurrent - e.size ∧
      (fire s now i).tree = [] := by
  have hE : expireLoop now s.tree s.data s.memCurrent
      = ([], mapDelete s.data k, s.memCurrent - e.size) := by
    rw [hTree]
    simp only [expireLoop]
    rw [if_pos hT]
    simp only [reapBucket, hMap]
  unfold fire onKeyExpired
  dsimp only
  rw [hE]
  exact ⟨mapGet_mapDelete_self s.data k hNd, rfl, rfl⟩

theorem prune_tree (s : Cache K) : (Cache.prune s).tree = s.tree := rfl

theorem prune_data_drop (s : Cache K) :
    ∃ n, (Cache.prune s).data = s.data.drop n := by
  obtain ⟨n, _, heq, _, _⟩ := pruneLoop_spec s.maxItems s.memMax s.data s.memCurrent
  exact ⟨n, by simp [Cache.prune, heq]⟩

theorem has_of_absent (s : Cache K) (now : ℤ) (k : K)
    (h : mapGet s.data k = none) : Cache.has s now k = false := by
  unfold Cache.has
  rw [h]

/-! ### Concrete scenarios -/

/-- C1/C2 starting configuration: `maxItems = 2`, everything else default. -/
def c1s0 : Cache ℕ := mkCache { maxItems := .fin 2 }

/-- C1 scenario after `set(a, X)`, `set(b, Y)`, `set(c, Z)` (keys 0, 1, 2 at
times 1000, 1001, 1002, default infinite ttl): one prune task is pending. -/
def c1s3 : Cache ℕ :=
  Cache.set (Cache.set (Cache.set c1s0 1000 0 (.num 1) c1s0.ttl) 1001 1 (.num 2) c1s0.ttl)
    1002 2 (.num 3) c1s0.ttl

/-- C1 scenario after the deferred prune pass has run. -/
def c1final : Cache ℕ := runTask c1s3

/-- C2 scenario: key 0 is set with ttl 100 at time 1000 and its deferred
`#addTTL` registration runs, so the bucket for 1100 holds key 0. -/
def c2s1 : Cache ℕ := runTask (Cache.set c1s0 1000 0 (.num 1) (.fin 100))

/-- C2 scenario after two more sets (keys 1, 2, infinite ttl): the store
exceeds `maxItems = 2` and a prune task is pending. -/
def c2s3 : Cache ℕ :=
  Cache.set (Cache.set c2s1 1001 1 (.num 2) c1s0.ttl) 1002 2 (.num 3) c1s0.ttl

/-- C2 scenario after the deferred prune pass has run: keys 0 and 1 have
been evicted. -/
def c2final : Cache ℕ := runTask c2s3

/-- C4 scenario: `set(k, v1, ttl = 100)` at time 1000, then `set(k, v2)`
(default infinite ttl) at time 1001 while the first set's deferred
`#addTTL` task is still pending, then that task runs and arms the timer
for timestamp 1100 even though the current entry never expires. -/
def c4pre : Cache ℕ :=
  runTask (Cache.set (Cache.set (mkCache {} : Cache ℕ) 1000 0 (.str "a") (.fin 100))
    1001 0 (.str "bb") JNum.inf)

/-- C7 scenario: a configuration with negative ttl, maxItems and
maxMemoryInMb is passed to the constructor. -/
def c7bad : Cache ℕ :=
  mkCache { ttl := .fin (-5), maxItems := .fin (-1), maxMemoryInMb := .fin (-2) }

/-- A small state used by witnesses: one entry (key 0, 8 bytes, expiring at
1100) whose expiry is registered in the tree, timer armed. -/
def w6 : Cache ℕ :=
  { maxItems := .inf
    ttl := .inf
    data := [(0, ⟨8, .num 1, .fin 1100⟩)]
    memCurrent := 8
    memMax := .inf
    tree := [(1100, [0])]
    timeoutId := some 0
    timeoutTimestamp := .fin 1100
    noPruneScheduled := true
    pending := []
    live := [0]
    nextId := 1 }

/-- A multi-bucket state used by the C6 witness: four entries, of which
keys 5 and 0 expire at 1100, key 1 expires at 1150, and key 9 never
expires; the tree holds the two corresponding buckets and the timer is
armed for 1100. -/
def w6b : Cache ℕ :=
  { maxItems := .inf
    ttl := .inf
    data := [(5, ⟨8, .num 1, .fin 1100⟩), (0, ⟨4, .boolean true, .fin 1100⟩),
      (1, ⟨2, .str "ab", .fin 1150⟩), (9, ⟨8, .num 7, .inf⟩)]
    memCurrent := 22
    memMax := .inf
    tree := [(1100, [5, 0]), (1150, [1])]
    timeoutId := some 3
    timeoutTimestamp := .fin 1100
    noPruneScheduled := true
    pending := []
    live := [3]
    nextId := 4 }

/-- A small state used by witnesses: two never-expiring entries, key 0
oldest. -/
def w3 : Cache ℕ :=
  { maxItems := .inf
    ttl := .inf
    data := [(0, ⟨8, .num 5, .inf⟩), (1, ⟨8, .num 6, .inf⟩)]
    memCurrent := 16
    memMax := .inf
    tree := []
    timeoutId := none
    timeoutTimestamp := .inf
    noPruneScheduled := true
    pending := []
    live := []
    nextId := 0 }

/-! ### The claims -/

/-- C1, counterexample: with `maxItems = 2`, after `set(a, X)`, `set(b, Y)`,
`set(c, Z)` and the deferred prune pass, the claimed final state
(`size == 2`, `has(b) == true`) does not hold: the strict stop condition of
`#prune` (`size < maxItems && current < max`) evicts `b` as well, leaving
`size == 1` and `has(b) == false`. -/
theorem c1_counterexample :
    Cache.size c1final = 1 ∧ Cache.has c1final 1003 1 = false := by
  exact ⟨by decide, by decide⟩

/-- C1 (amended): a prune pass evicts oldest-first until the store is
*strictly* under both limits (`size < maxItems` and `current < max`), or
empty; it never evicts an entry while the strict condition already holds,
so it evicts no more than the strict limits demand (which is one entry more
than the claimed `≤` limits demand).  In the concrete scenario the pass
therefore leaves exactly one entry: `size == 1`, `has(a) == false`,
`has(b) == false`, `has(c) == true`. -/
theorem c1_amended_prune :
    (∀ (s : Cache ℕ), ∃ n,
        (Cache.prune s).data = s.data.drop n ∧
        (Cache.prune s).memCurrent = s.memCurrent - sumSizes (s.data.take n) ∧
        ((Cache.prune s).data = [] ∨
          underLimits s.maxItems s.memMax (Cache.prune s).data.length
            (Cache.prune s).memCurrent = true) ∧
        (∀ j, j < n → underLimits s.maxItems s.memMax (s.data.drop j).length
            (s.memCurrent - sumSizes (s.data.take j)) = false)) ∧
    Cache.size c1final = 1 ∧ Cache.has c1final 1003 0 = false ∧
    Cache.has c1final 1003 2 = true := by
  refine ⟨?_, by decide, by decide, by decide⟩
  intro s
  obtain ⟨n, _, heq, hstop, hmin⟩ :=
    pruneLoop_spec s.maxItems s.memMax s.data s.memCurrent
  refine ⟨n, by simp [Cache.prune, heq], by simp [Cache.prune, heq], ?_, hmin⟩
  rcases hstop with h | h
  · exact Or.inl (by simp [Cache.prune, heq, h])
  · exact Or.inr (by simpa [Cache.prune, heq] using h)

/-- C2, counterexample: in the reachable state of the concrete scenario the
prune pass has evicted key 0 — whose entry had finite `expiresAt = 1100` —
from the Entry Store, yet key 0 is still a member of the Expiry Index
bucket for 1100: a prune eviction does not remove the key from its bucket,
so the two structures are not synchronized. -/
theorem c2_counterexample :
    (mapGet c2s3.data 0).map Entry.expiresAt = some (.fin 1100) ∧
    mapGet c2final.data 0 = none ∧
    treeGet c2final.tree 1100 = some [0] := by
  exact ⟨by decide, by decide, by decide⟩

/-- C2 (amended): `delete` does keep the Entry Store and the Expiry Index
synchronized (it removes the key from the store and from its bucket,
dropping the bucket entirely when the key was its only member), but a
prune eviction leaves the Expiry Index completely untouched, so a pruned
key with finite expiry stays in its bucket until the timer consumes it. -/
theorem c2_amended_sync :
    (∀ (s : Cache ℕ), (Cache.prune s).tree = s.tree) ∧
    (∀ (s : Cache ℕ) (k : ℕ) (e : Entry) (t : ℤ) (b : List ℕ),
        mapGet s.data k = some e → e.expiresAt = .fin t →
        (s.data.map Prod.fst).Nodup → (s.tree.map Prod.fst).Nodup →
        treeGet s.tree t = some b →
        mapGet (Cache.delete s k).data k = none ∧
        (b.length = 1 → treeGet (Cache.delete s k).tree t = none) ∧
        (b.length ≠ 1 →
          treeGet (Cache.delete s k).tree t = some (bucketErase b k))) := by
  constructor
  · intro s
    exact prune_tree s
  · intro s k e t b hm he hnd hnt hb
    have htree : (Cache.delete s k).tree =
        if b.length = 1 then treeRemove s.tree t
        else treeUpdate s.tree t (bucketErase b k) := by
      unfold Cache.delete
      rw [hm]
      dsimp only
      rw [he]
      dsimp only
      rw [hb]
      dsimp only
      by_cases hlen : b.length = 1
      · rw [if_pos hlen, if_pos hlen]
        by_cases hts : JNum.fin t = s.timeoutTimestamp
        · rw [if_pos hts]
          exact scheduleNextTimer_tree _
        · rw [if_neg hts]
      · rw [if_neg hlen, if_neg hlen]
    refine ⟨mapGet_delete_self s k hnd, ?_, ?_⟩
    · intro hlen
      rw [htree, if_pos hlen]
      exact treeGet_treeRemove_self s.tree t hnt
    · intro hlen
      rw [htree, if_neg hlen]
      exact treeGet_treeUpdate_self s.tree t b _ hb

/-- C2, witness for the amended claim: deleting the sole registered key
removes it both from the store and from the tree. -/
theorem c2_amended_sync_witness :
    mapGet (Cache.delete w6 0).data 0 = none ∧
    treeGet (Cache.delete w6 0).tree 1100 = none := by
  have h := c2_amended_sync.2 w6 0 ⟨8, .num 1, .fin 1100⟩ 1100 [0]
    rfl rfl (by decide) (by decide) rfl
  exact ⟨h.1, h.2.1 rfl⟩

/-- C3: Entry Store iteration order is recency order — a `get` that returns
a value moves the key to the newest position (leaving the other entries in
order), a `set` inserts the fresh entry at the newest position, and a prune
pass evicts exactly a prefix of the iteration order (the least recently
touched keys, oldest first). -/
theorem c3_lru_order :
    (∀ (s : Cache ℕ) (now : ℤ) (k : ℕ) (e : Entry),
        mapGet s.data k = some e → JNum.lt (.fin now) e.expiresAt = true →
        Cache.get s now k =
          (some e.value, { s with data := mapDelete s.data k ++ [(k, e)] })) ∧
    (∀ (s : Cache ℕ) (now : ℤ) (k : ℕ) (v : JSValue) (t : JNum),
        (Cache.set s now k v t).data =
          (Cache.delete s k).data ++
            [(k, ⟨measureSize v, v, (JNum.fin now).add t⟩)]) ∧
    (∀ (s : Cache ℕ), ∃ n, (Cache.prune s).data = s.data.drop n) := by
  exact ⟨fun s now k e hm hlt => get_of_live s now k e hm hlt,
    fun s now k v t => set_data s now k v t,
    fun s => prune_data_drop s⟩

/-- C3, witness: in a two-entry store, `get` on the oldest live key moves
it to the newest position and returns its value. -/
theorem c3_lru_order_witness :
    Cache.get w3 10 0 =
      (some (.num 5), { w3 with data := mapDelete w3.data 0 ++ [(0, ⟨8, .num 5, .inf⟩)] }) := by
  exact c3_lru_order.1 w3 10 0 ⟨8, .num 5, .inf⟩ rfl rfl

/-- C4: the deferred `#addTTL` registration does not check current state.
In the scenario `set(k, v1, ttl = 100)`; `set(k, v2)` (unbounded ttl)
before the registration runs; registration runs: the key is live with
`expiresAt = Infinity` (`has` is true at 1150), yet when the stale timer
fires at 1200 the replacement entry is removed from the store.  This
contradicts the claim (and the documented `get`/`has` semantics, under
which a never-expiring entry stays until deleted). -/
theorem c4_stale_timer_reaps_replacement :
    Cache.has c4pre 1150 0 = true ∧
    (mapGet c4pre.data 0).map Entry.expiresAt = some JNum.inf ∧
    mapGet (fire c4pre 1200 0).data 0 = none := by
  exact ⟨by decide, by decide, by decide⟩

/-- C5: in every reachable state at most one runtime timer handle is
outstanding, no matter how many distinct expiry timestamps the tree
tracks. -/
theorem c5_single_timer (s : Cache K) (h : Reachable s) : s.live.length ≤ 1 := by
  rcases reachable_timerInv s h with h1 | ⟨i, h1, _⟩ <;> simp [h1]

/-- C5, witness: a state reached by a `set` with finite ttl followed by the
deferred registration (which arms the timer) has at most one handle. -/
theorem c5_single_timer_witness :
    (runTask (Cache.set (mkCache {} : Cache ℕ) 1000 0 (.num 1) (.fin 100))).live.length ≤ 1 := by
  exact c5_single_timer _
    (Reachable.taskStep _ (Reachable.setStep _ 1000 0 (.num 1) (.fin 100) (Reachable.init _)))

/-- C6: for an entry with finite `expiresAt = t`, `has` is true exactly at
instants strictly before `t` (so false from `t` onward).  When the timer
fires at `now ≥ t`, then for *every* key of *every* due bucket of the
(timestamp-sorted) Expiry Index — however many buckets and keys it tracks —
the key is physically removed from the Entry Store (so `has` is false);
and the firing keeps the memory counter equal to the sum of the sizes of
the entries still stored, so each reaped entry's size has been subtracted
from it. -/
theorem c6_ttl_expiry :
    (∀ (s : Cache ℕ) (now : ℤ) (k : ℕ) (e : Entry) (t : ℤ),
        mapGet s.data k = some e → e.expiresAt = .fin t →
        Cache.has s now k = decide (now < t)) ∧
    (∀ (s : Cache ℕ) (now : ℤ) (i : ℕ) (k : ℕ) (t : ℤ) (b : List ℕ),
        List.Pairwise (fun p q => p.1 ≤ q.1) s.tree →
        (t, b) ∈ s.tree → k ∈ b → t ≤ now →
        (s.data.map Prod.fst).Nodup →
        mapGet (fire s now i).data k = none ∧
        Cache.has (fire s now i) now k = false) ∧
    (∀ (s : Cache ℕ) (now : ℤ) (i : ℕ),
        s.memCurrent = sumSizes s.data →
        (fire s now i).memCurrent = sumSizes (fire s now i).data) := by
  refine ⟨?_, ?_, ?_⟩
  · intro s now k e t hm he
    rw [has_of_entry s now k e hm, he]
    rfl
  · intro s now i k t b hsort hmem hk hT hnd
    have h1 := fire_removes s now i k t b hsort hmem hk hT hnd
    exact ⟨h1, has_of_absent _ now k h1⟩
  · intro s now i h
    exact fire_mem_sum s now i h

/-- C6, witness: in the four-entry, two-bucket state `w6b`, the entry
expiring at 1100 answers `has` by comparing the clock with 1100; firing the
timer at 1200 removes key 1 — a member of the second due bucket, at 1150 —
and leaves the memory counter equal to the sizes of the surviving
entries. -/
theorem c6_ttl_expiry_witness :
    Cache.has w6b 1099 0 = decide ((1099 : ℤ) < 1100) ∧
    mapGet (fire w6b 1200 3).data 1 = none ∧
    Cache.has (fire w6b 1200 3) 1200 1 = false ∧
    (fire w6b 1200 3).memCurrent = sumSizes (fire w6b 1200 3).data := by
  refine ⟨c6_ttl_expiry.1 w6b 1099 0 ⟨4, .boolean true, .fin 1100⟩ 1100 (by decide) rfl,
    ?_, ?_, ?_⟩
  · exact (c6_ttl_expiry.2.1 w6b 1200 3 1 1150 [1]
      (by decide) (by decide) (by decide) (by decide) (by decide)).1
  · exact (c6_ttl_expiry.2.1 w6b 1200 3 1 1150 [1]
      (by decide) (by decide) (by decide) (by decide) (by decide)).2
  · exact c6_ttl_expiry.2.2 w6b 1200 3 (by decide)

/-- C7, counterexample: the constructor performs no validation at all — a
configuration with negative `ttl`, `maxItems` and `maxMemoryInMb` produces
a working cache instance (no error of any kind), which then exhibits the
silently wrong behaviour the claim says is prevented: an entry stored with
the negative default ttl is already expired when `set` returns. -/
theorem c7_counterexample :
    c7bad.ttl = .fin (-5) ∧ c7bad.maxItems = .fin (-1) ∧
    c7bad.memMax = .fin (-2097152) ∧
    Cache.has (Cache.set c7bad 1000 0 (.num 1) c7bad.ttl) 1000 0 = false := by
  exact ⟨by decide, by decide, by decide, by decide⟩

/-- C7 (amended): construction never fails; negative `ttl`, `maxItems` and
`maxMemoryInMb` are stored as given (the memory bound scaled to bytes)
without any rejection, and a `set` whose ttl is non-positive produces an
entry that is already expired when `set` returns. -/
theorem c7_amended_no_validation :
    (∀ (t mi mm : ℤ),
        (mkCache { ttl := .fin t, maxItems := .fin mi, maxMemoryInMb := .fin mm } :
            Cache ℕ).ttl = .fin t ∧
        (mkCache { ttl := .fin t, maxItems := .fin mi, maxMemoryInMb := .fin mm } :
            Cache ℕ).maxItems = .fin mi ∧
        (mkCache { ttl := .fin t, maxItems := .fin mi, maxMemoryInMb := .fin mm } :
            Cache ℕ).memMax = .fin (mm * 1024 ^ 2)) ∧
    (∀ (s : Cache ℕ) (now : ℤ) (k : ℕ) (v : JSValue) (t : ℤ), t ≤ 0 →
        (s.data.map Prod.fst).Nodup →
        Cache.has (Cache.set s now k v (.fin t)) now k = false) := by
  constructor
  · intro t mi mm
    exact ⟨rfl, rfl, rfl⟩
  · intro s now k v t ht hnd
    exact has_set_nonpos s now k v t ht hnd

/-- C7, witness for the amended claim: the negative configuration is stored
verbatim and an entry set with ttl `-5` is instantly expired. -/
theorem c7_amended_no_validation_witness :
    (mkCache { ttl := .fin (-5), maxItems := .fin (-1), maxMemoryInMb := .fin (-2) } :
        Cache ℕ).memMax = .fin ((-2) * 1024 ^ 2) ∧
    Cache.has (Cache.set (mkCache {} : Cache ℕ) 1000 0 (.num 1) (.fin (-5))) 1000 0 = false := by
  exact ⟨(c7_amended_no_validation.1 (-5) (-1) (-2)).2.2,
    c7_amended_no_validation.2 (mkCache {}) 1000 0 (.num 1) (-5) (by decide) (by decide)⟩

/-- C8: the `memory` getter reports megabytes: its `current` field is the
internal byte counter divided by `1024 ** 2`, and for a cache constructed
with a finite `maxMemoryInMb = M` the `max` field reads back exactly `M`
(bytes scaled up at construction, scaled back down by the getter). -/
theorem c8_memory_megabytes :
    (∀ (s : Cache ℕ),
        (Cache.memory s).1 = JMem.fin ((s.memCurrent : ℚ) / 1024 ^ 2)) ∧
    (∀ (o : CacheOptions) (M : ℤ), o.maxMemoryInMb = .fin M →
        (Cache.memory (mkCache o : Cache ℕ)).2 = JMem.fin (M : ℚ)) := by
  constructor
  · intro s
    rfl
  · intro o M h
    simp only [Cache.memory, mkCache, h, JNum.mulConst, JNum.divConst]
    congr 1
    push_cast
    norm_num

/-- C8, witness: a cache built with `maxMemoryInMb = 3` reports `max = 3`
megabytes. -/
theorem c8_memory_megabytes_witness :
    (Cache.memory (mkCache { maxMemoryInMb := .fin 3 } : Cache ℕ)).2 = JMem.fin 3 := by
  exact c8_memory_megabytes.2 { maxMemoryInMb := .fin 3 } 3 rfl

/-- C9: `delete` on a key absent from the Entry Store is a complete no-op:
the resulting state — entry count, memory counter, Expiry Index, timer
fields, pending tasks — is equal to the input state. -/
theorem c9_delete_absent_noop (s : Cache K) (k : K)
    (h : mapGet s.data k = none) : Cache.delete s k = s := by
  exact delete_of_absent s k h

/-- C9, witness: deleting from a fresh cache changes nothing. -/
theorem c9_delete_absent_noop_witness :
    Cache.delete (mkCache {} : Cache ℕ) 0 = mkCache {} := by
  exact c9_delete_absent_noop (mkCache {}) 0 rfl

/-- C10: an entry whose finite `expiresAt` has passed but which has not yet
been physically removed is reported absent by `has` and `get` (and the
failed `get` leaves the state — entry count, memory counter — untouched);
and a `set` with non-positive finite ttl creates exactly such an entry:
present in the store (counted by `size`, its bytes in the memory counter)
yet already dead for `has` the moment `set` returns. -/
theorem c10_lazy_expiry :
    (∀ (s : Cache ℕ) (now : ℤ) (k : ℕ) (e : Entry) (t : ℤ),
        mapGet s.data k = some e → e.expiresAt = .fin t → t ≤ now →
        Cache.has s now k = false ∧ Cache.get s now k = (none, s)) ∧
    (∀ (s : Cache ℕ) (now : ℤ) (k : ℕ) (v : JSValue) (t : ℤ), t ≤ 0 →
        (s.data.map Prod.fst).Nodup →
        mapGet (Cache.set s now k v (.fin t)).data k =
          some ⟨measureSize v, v, .fin (now + t)⟩ ∧
        Cache.has (Cache.set s now k v (.fin t)) now k = false ∧
        Cache.size (Cache.set s now k v (.fin t)) =
          (Cache.delete s k).data.length + 1 ∧
        (Cache.set s now k v (.fin t)).memCurrent =
          (Cache.delete s k).memCurrent + measureSize v) := by
  constructor
  · intro s now k e t hm he hT
    have hlt : JNum.lt (.fin now) e.expiresAt = false := by
      rw [he]
      simp only [JNum.lt]
      simpa using by omega
    refine ⟨?_, get_of_dead s now k e hm hlt⟩
    rw [has_of_entry s now k e hm, hlt]
  · intro s now k v t ht hnd
    refine ⟨mapGet_set_self s now k v (.fin t) hnd, has_set_nonpos s now k v t ht hnd, ?_, ?_⟩
    · simp [Cache.size, set_data]
    · exact set_memCurrent s now k v (.fin t)

/-- C10, witness: in a one-entry store at time 1200 the entry expired at
1100 is invisible to `has`/`get` while still stored; and a `set` with ttl 0
is instantly expired while occupying 8 bytes and one slot. -/
theorem c10_lazy_expiry_witness :
    (Cache.has w6 1200 0 = false ∧ Cache.get w6 1200 0 = (none, w6)) ∧
    Cache.has (Cache.set (mkCache {} : Cache ℕ) 1000 5 (.num 9) (.fin 0)) 1000 5 = false := by
  exact ⟨c10_lazy_expiry.1 w6 1200 0 ⟨8, .num 1, .fin 1100⟩ 1100 rfl rfl (by decide),
    (c10_lazy_expiry.2 (mkCache {}) 1000 5 (.num 9) 0 (by decide) (by decide)).2.1⟩

end CacheJS
